import Mathlib

/-!
Shallow embedding of the f3fs shrinker coordinator (src/f2fs/shrinker.c).

The registry is the global list `f3fs_list` of mounted instances
(`struct f3fs_sb_info` linked through `s_list`) together with the global
`shrinker_run_no` counter (an `unsigned int`, so arithmetic is mod 2^32).
Each instance record carries:
  * `busy`     — whether `mutex_trylock(&sbi->umount_mutex)` fails
                 (the non-blocking ownership gate held by teardown);
  * `marker`   — `sbi->shrinker_run_no`, the last-run stamp;
  * the three cache counters read by the `__count_*` helpers
    (`total_zombie_tree`, `total_ext_node`, `nat_cnt[RECLAIMABLE_NAT]`,
    `nid_cnt[FREE_NID]`);
  * three shrink oracles standing for the external collaborators
    `f3fs_shrink_extent_tree`, `f3fs_try_to_free_nats`,
    `f3fs_try_to_free_nids`: each maps a requested eviction count to the
    count actually freed (best-effort per the Cache Resource Contract).

Scan additionally records a ghost trace: one `ProcEvent` per successfully
processed record (the requests issued to and amounts freed by each tier),
plus a ghost iteration counter, so that the budget-tiering, stopping and
fairness properties can be stated about the observable interaction
sequence.  The ghost fields do not influence `freed` or the final list.
-/

/-- The width of C `unsigned int`, the type of `shrinker_run_no`. -/
def uintMod : Nat := 2 ^ 32

/-- One instance record (`struct f3fs_sb_info` as seen by the shrinker). -/
structure Rec where
  id : Nat
  busy : Bool
  marker : Nat
  zombie : Nat
  extNode : Nat
  natReclaimable : Nat
  freeNid : Nat
  extShrink : Nat → Nat
  natShrink : Nat → Nat
  nidShrink : Nat → Nat

/-- The process-wide registry: `f3fs_list` plus `shrinker_run_no`. -/
structure Registry where
  instances : List Rec
  runNo : Nat

/-- `__count_nat_entries`: clean (reclaimable) NAT entries. -/
def count_nat_entries (r : Rec) : Nat := r.natReclaimable

/-- `__count_free_nids`: free nids in excess of the `MAX_FREE_NIDS`
watermark `w`, computed in signed `long` arithmetic and clamped at zero.
`MAX_FREE_NIDS` is a header constant not present in src/, so it is a
parameter here. -/
def count_free_nids (w : Nat) (r : Rec) : Nat :=
  let count : Int := (r.freeNid : Int) - (w : Int)
  if 0 < count then count.toNat else 0

/-- `__count_extent_cache`: zombie trees plus cached extent nodes. -/
def count_extent_cache (r : Rec) : Nat := r.zombie + r.extNode

/-- The three per-record counts summed by `f3fs_shrink_count` for one
record whose ownership gate was acquired. -/
def countRec (w : Nat) (r : Rec) : Nat :=
  count_extent_cache r + count_nat_entries r + count_free_nids w r

/-- The walk of `f3fs_shrink_count`: records whose `umount_mutex`
trylock fails are skipped; the rest contribute their three counts.  The
registry state is threaded through to mirror the lock/relock structure
of the loop. -/
def countWalk (w : Nat) (total : Nat) : List Rec → Nat
  | [] => total
  | r :: rest =>
    if r.busy then countWalk w total rest
    else countWalk w (total + countRec w r) rest

/-- `f3fs_shrink_count`: returns the summed count and the registry as the
call leaves it. -/
def f3fs_shrink_count (w : Nat) (s : Registry) : Nat × Registry :=
  (countWalk w 0 s.instances, s)

/-- One tier's interaction with a cache: the requested eviction count and
the count the cache reported freed. -/
structure Tier where
  req : Nat
  freed : Nat
deriving DecidableEq, Repr

/-- Ghost trace entry for one successfully processed record during scan:
the scan-global freed total on entry, the extent-cache tier (always
issued), and the NAT / free-nid tiers (`none` when the guard
`freed < nr` skipped them). -/
structure ProcEvent where
  rid : Nat
  freedBefore : Nat
  ext : Tier
  nat : Option Tier
  nid : Option Tier
deriving DecidableEq, Repr

/-- Total number of objects a processed record's three tiers freed. -/
def eventTotal (e : ProcEvent) : Nat :=
  e.ext.freed + (e.nat.elim 0 Tier.freed) + (e.nid.elim 0 Tier.freed)

/-- Result of the scan walk: the freed total, the trace of processed
records, the final list, and a ghost count of loop iterations. -/
structure WalkOut where
  freed : Nat
  events : List ProcEvent
  list : List Rec
  steps : Nat

/-- Process one record inside `f3fs_shrink_scan` (the body between the
spin_unlock and the spin_lock): stamp the marker, then the three tiers.
Returns the event describing the interaction. -/
def procRec (nr freed : Nat) (r : Rec) : ProcEvent :=
  let extT : Tier := ⟨nr / 2, r.extShrink (nr / 2)⟩
  let f1 := freed + extT.freed
  let natT : Option Tier :=
    if f1 < nr then some ⟨nr - f1, r.natShrink (nr - f1)⟩ else none
  let f2 := f1 + natT.elim 0 Tier.freed
  let nidT : Option Tier :=
    if f2 < nr then some ⟨nr - f2, r.nidShrink (nr - f2)⟩ else none
  ⟨r.id, freed, extT, natT, nidT⟩

/-- Measure for the scan walk: records not yet stamped with this run,
plus the list length (a processed record keeps the length but loses its
unstamped status; a skipped record leaves the front). -/
def walkMeasure (run : Nat) (front : List Rec) : Nat :=
  front.countP (fun r => r.marker ≠ run) + front.length

/-- The loop of `f3fs_shrink_scan`.  `done` is the already-passed prefix
of the list (skipped busy records stay in place); `front` is the rest of
the list from the cursor `p` to the tail.  A processed record is stamped
and moved to the tail of the whole list, which is the tail of `front`. -/
def scanWalk (run nr : Nat) (freed : Nat) (done front : List Rec) : WalkOut :=
  match front with
  | [] => ⟨freed, [], done, 0⟩
  | r :: rest =>
    if r.marker = run then ⟨freed, [], done ++ front, 1⟩
    else if r.busy then
      let out := scanWalk run nr freed (done ++ [r]) rest
      ⟨out.freed, out.events, out.list, out.steps + 1⟩
    else
      let e := procRec nr freed r
      let freed' := freed + eventTotal e
      let r' := { r with marker := run }
      if freed' ≥ nr then ⟨freed', [e], done ++ rest ++ [r'], 1⟩
      else
        let out := scanWalk run nr freed' done (rest ++ [r'])
        ⟨out.freed, e :: out.events, out.list, out.steps + 1⟩
termination_by walkMeasure run front
decreasing_by
  · simp only [walkMeasure, List.countP_cons, List.length_cons]
    split <;> omega
  · have hne : ¬(r.marker = run) := by assumption
    simp only [walkMeasure, List.countP_cons, List.countP_append, List.length_cons,
      List.length_append, List.countP_nil, List.length_nil]
    simp [hne]

/-- Fresh run id: `do { run_no = ++shrinker_run_no; } while (run_no == 0);`
in `unsigned int` arithmetic.  Starting from counter `c` the loop runs at
most twice, since `(c+1) % 2^32 = 0` forces `(c+2) % 2^32 = 1`. -/
def nextRunNo (c : Nat) : Nat :=
  let c1 := (c + 1) % uintMod
  if c1 = 0 then (c1 + 1) % uintMod else c1

/-- Result of one scan invocation (ghost trace included). -/
structure ScanResult where
  freed : Nat
  events : List ProcEvent
  steps : Nat

/-- `f3fs_shrink_scan`: draw a fresh run id, walk the list from the head,
return the freed total and the updated registry. -/
def f3fs_shrink_scan (nr : Nat) (s : Registry) : ScanResult × Registry :=
  let run := nextRunNo s.runNo
  let out := scanWalk run nr 0 [] s.instances
  (⟨out.freed, out.events, out.steps⟩, ⟨out.list, run⟩)

/-- `f3fs_join_shrinker`: append the record at the tail of the list. -/
def f3fs_join_shrinker (r : Rec) (s : Registry) : Registry :=
  ⟨s.instances ++ [r], s.runNo⟩

/-- `f3fs_leave_shrinker`: issue one extent-cache shrink request for the
record's entire current extent count, then unlink the record from the
list (`list_del_init` removes the one node).  Returns the request size it
issued and the new registry. -/
def f3fs_leave_shrinker (r : Rec) (s : Registry) : Nat × Registry :=
  let req := count_extent_cache r
  (req, ⟨s.instances.eraseP (fun x => x.id = r.id), s.runNo⟩)

/-! ### Properties of the interaction trace, and concrete test registries -/

/-- The tier discipline of one processed record, relative to target `nr`:
the extent tier requests `nr / 2`; the NAT tier is issued iff the freed
total after the extent tier is still below `nr`, requesting the
shortfall; the free-nid tier likewise after the NAT tier. -/
def tierOk (nr : Nat) (e : ProcEvent) : Prop :=
  e.ext.req = nr / 2 ∧
  (let f1 := e.freedBefore + e.ext.freed
   if f1 < nr then
     ∃ t, e.nat = some t ∧ t.req = nr - f1 ∧
       (let f2 := f1 + t.freed
        if f2 < nr then (∃ u, e.nid = some u ∧ u.req = nr - f2)
        else e.nid = none)
   else e.nat = none ∧ e.nid = none)

/-- The events of a scan chain on one accumulator: each record sees as
`freedBefore` exactly the accumulator left by all earlier records (never
reset), and each satisfies the tier discipline. -/
def tieredFrom (nr : Nat) : Nat → List ProcEvent → Prop
  | _, [] => True
  | acc, e :: es =>
    e.freedBefore = acc ∧ tierOk nr e ∧ tieredFrom nr (acc + eventTotal e) es

/-- Every processed record was entered with the freed total still below
the target. -/
def eventsBelow (nr : Nat) : List ProcEvent → Prop
  | [] => True
  | e :: es => e.freedBefore < nr ∧ eventsBelow nr es

/-- The amount a record frees when processed at target 1 with a zero
accumulator (the `scan(1)` situation of the fairness property). -/
def recFreed1 (r : Rec) : Nat := eventTotal (procRec 1 0 r)

/-- The ids of the records processed by `n` successive `scan(1)` calls,
in order. -/
def scanSeq (n : Nat) (s : Registry) : List Nat :=
  match n with
  | 0 => []
  | Nat.succ m =>
    let out := f3fs_shrink_scan 1 s
    out.1.events.map ProcEvent.rid ++ scanSeq m out.2

/-- A shrink oracle that frees exactly what is requested. -/
def idShrink : Nat → Nat := fun n => n

/-- A non-busy test record with caches holding 3+4 extent objects,
5 clean NAT entries and 10 cached free nids. -/
def wRec (i : Nat) : Rec := ⟨i, false, 0, 3, 4, 5, 10, idShrink, idShrink, idShrink⟩

/-- A test record whose ownership gate is held (trylock fails). -/
def wRecBusy (i : Nat) : Rec := ⟨i, true, 0, 3, 4, 5, 10, idShrink, idShrink, idShrink⟩

/-! ### Helper lemmas -/

theorem countWalk_acc (w t : Nat) (l : List Rec) :
    countWalk w t l
      = t + ((l.filter (fun r => !r.busy)).map (countRec w)).sum := by
  induction l generalizing t with
  | nil => simp [countWalk]
  | cons r rest ih =>
    by_cases hb : r.busy
    · simp [countWalk, hb, ih]
    · simp [countWalk, hb, ih]
      omega

/-! ### Claims -/

/-- C5: `count_reclaimable` returns exactly the sum, over every instance
whose ownership gate is acquired (`busy = false`), of its extent cache
count plus its clean NAT entry count plus its clamped free-nid count;
busy instances are skipped and contribute nothing. -/
theorem count_sums_eligible (w : Nat) (s : Registry) :
    (f3fs_shrink_count w s).1
      = ((s.instances.filter (fun r => !r.busy)).map (countRec w)).sum := by
  simpa [f3fs_shrink_count] using countWalk_acc w 0 s.instances

/-- C10: `count_reclaimable` never mutates the registry: the membership
and order of the instances list (hence every record's marker) and the
run counter are unchanged by the call. -/
theorem count_preserves_registry (w : Nat) (s : Registry) :
    (f3fs_shrink_count w s).2.instances = s.instances ∧
    (f3fs_shrink_count w s).2.runNo = s.runNo :=
  ⟨rfl, rfl⟩

/-- C7: the free-nid count reported to the count coordinator is the
cached free nids in excess of the watermark when positive, and zero when
at or below the watermark (in particular it is a `Nat`, never
negative). -/
theorem free_nid_clamped (w : Nat) (r : Rec) :
    count_free_nids w r = if w < r.freeNid then r.freeNid - w else 0 := by
  simp only [count_free_nids]
  split_ifs <;> omega

/-- C8: a scan obtains its run id by incrementing the run counter mod
2^32, repeating on zero: the stamped/stored run id is `nextRunNo` of the
old counter, it is never the sentinel 0, and in the non-wrapping case it
is exactly the old counter plus one (so successive non-wrapping scans
get strictly increasing run ids). -/
theorem scan_fresh_run_id (nr : Nat) (s : Registry) :
    (f3fs_shrink_scan nr s).2.runNo = nextRunNo s.runNo ∧
    nextRunNo s.runNo ≠ 0 ∧
    (s.runNo + 1 < uintMod → nextRunNo s.runNo = s.runNo + 1) := by
  refine ⟨rfl, ?_, ?_⟩
  · simp only [nextRunNo]
    split_ifs with h
    · rw [h]; norm_num [uintMod]
    · exact h
  · intro h
    simp only [nextRunNo]
    rw [Nat.mod_eq_of_lt h]
    simp

/-- Witness for C8 at a concrete counter value. -/
theorem scan_fresh_run_id_witness :
    5 + 1 < uintMod ∧ nextRunNo 5 = 6 :=
  ⟨by norm_num [uintMod],
   (scan_fresh_run_id 0 ⟨[], 5⟩).2.2 (by norm_num [uintMod])⟩

theorem scanWalk_nil (run nr freed : Nat) (done : List Rec) :
    scanWalk run nr freed done [] = ⟨freed, [], done, 0⟩ := by
  simp [scanWalk]

theorem scanWalk_cons_stamped {run nr freed : Nat} {done rest : List Rec} {r : Rec}
    (h : r.marker = run) :
    scanWalk run nr freed done (r :: rest) = ⟨freed, [], done ++ r :: rest, 1⟩ := by
  simp [scanWalk, h]

theorem scanWalk_cons_busy {run nr freed : Nat} {done rest : List Rec} {r : Rec}
    (hm : ¬ r.marker = run) (hb : r.busy = true) :
    scanWalk run nr freed done (r :: rest)
      = ⟨(scanWalk run nr freed (done ++ [r]) rest).freed,
         (scanWalk run nr freed (done ++ [r]) rest).events,
         (scanWalk run nr freed (done ++ [r]) rest).list,
         (scanWalk run nr freed (done ++ [r]) rest).steps + 1⟩ := by
  simp [scanWalk, hm, hb]

theorem scanWalk_cons_break {run nr freed : Nat} {done rest : List Rec} {r : Rec}
    (hm : ¬ r.marker = run) (hb : r.busy = false)
    (hge : freed + eventTotal (procRec nr freed r) ≥ nr) :
    scanWalk run nr freed done (r :: rest)
      = ⟨freed + eventTotal (procRec nr freed r), [procRec nr freed r],
         done ++ rest ++ [{ r with marker := run }], 1⟩ := by
  rw [scanWalk]
  rw [if_neg hm, if_neg (by simp [hb]), if_pos hge]

theorem scanWalk_cons_cont {run nr freed : Nat} {done rest : List Rec} {r : Rec}
    (hm : ¬ r.marker = run) (hb : r.busy = false)
    (hlt : ¬ freed + eventTotal (procRec nr freed r) ≥ nr) :
    scanWalk run nr freed done (r :: rest)
      = ⟨(scanWalk run nr (freed + eventTotal (procRec nr freed r)) done
            (rest ++ [{ r with marker := run }])).freed,
         procRec nr freed r ::
           (scanWalk run nr (freed + eventTotal (procRec nr freed r)) done
             (rest ++ [{ r with marker := run }])).events,
         (scanWalk run nr (freed + eventTotal (procRec nr freed r)) done
            (rest ++ [{ r with marker := run }])).list,
         (scanWalk run nr (freed + eventTotal (procRec nr freed r)) done
            (rest ++ [{ r with marker := run }])).steps + 1⟩ := by
  rw [scanWalk]
  rw [if_neg hm, if_neg (by simp [hb]), if_neg hlt]

theorem procRec_freedBefore (nr freed : Nat) (r : Rec) :
    (procRec nr freed r).freedBefore = freed := rfl

theorem procRec_rid (nr freed : Nat) (r : Rec) :
    (procRec nr freed r).rid = r.id := rfl

theorem procRec_tierOk (nr freed : Nat) (r : Rec) : tierOk nr (procRec nr freed r) := by
  simp only [tierOk, procRec]
  refine ⟨trivial, ?_⟩
  by_cases h1 : freed + r.extShrink (nr / 2) < nr
  · simp only [h1, if_true]
    refine ⟨⟨nr - (freed + r.extShrink (nr / 2)),
             r.natShrink (nr - (freed + r.extShrink (nr / 2)))⟩, rfl, rfl, ?_⟩
    by_cases h2 : freed + r.extShrink (nr / 2)
        + r.natShrink (nr - (freed + r.extShrink (nr / 2))) < nr
    · simp [h2]
    · simp [h2]
  · simp [h1]

theorem scanWalk_tiered (run nr freed : Nat) (done front : List Rec) :
    tieredFrom nr freed (scanWalk run nr freed done front).events ∧
    (scanWalk run nr freed done front).freed
      = freed + ((scanWalk run nr freed done front).events.map eventTotal).sum := by
  induction freed, done, front using scanWalk.induct run nr with
  | case1 freed done => simp [scanWalk_nil, tieredFrom]
  | case2 freed done r rest hm => simp [scanWalk_cons_stamped hm, tieredFrom]
  | case3 freed done r rest hm hb ih =>
    rw [scanWalk_cons_busy hm hb]
    simpa using ih
  | case4 freed done r rest hm hb e freed' hge =>
    have hb' : r.busy = false := by simpa using hb
    have hge' : freed + eventTotal (procRec nr freed r) ≥ nr := hge
    rw [scanWalk_cons_break hm hb' hge']
    simp [tieredFrom, procRec_tierOk, procRec_freedBefore]
  | case5 freed done r rest hm hb e freed' r' hlt ih =>
    have hb' : r.busy = false := by simpa using hb
    have hlt' : ¬ freed + eventTotal (procRec nr freed r) ≥ nr := hlt
    rw [scanWalk_cons_cont hm hb' hlt']
    have ih1 : tieredFrom nr (freed + eventTotal (procRec nr freed r))
        (scanWalk run nr (freed + eventTotal (procRec nr freed r)) done
          (rest ++ [{ r with marker := run }])).events := ih.1
    have ih2 : (scanWalk run nr (freed + eventTotal (procRec nr freed r)) done
          (rest ++ [{ r with marker := run }])).freed
        = (freed + eventTotal (procRec nr freed r))
          + ((scanWalk run nr (freed + eventTotal (procRec nr freed r)) done
              (rest ++ [{ r with marker := run }])).events.map eventTotal).sum := ih.2
    refine ⟨⟨procRec_freedBefore nr freed r, procRec_tierOk nr freed r, ih1⟩, ?_⟩
    simp only [List.map_cons, List.sum_cons]
    omega

theorem scanWalk_eventsBelow (run nr freed : Nat) (done front : List Rec)
    (h : freed < nr) :
    eventsBelow nr (scanWalk run nr freed done front).events := by
  revert h
  induction freed, done, front using scanWalk.induct run nr with
  | case1 freed done => intro h; simp [scanWalk_nil, eventsBelow]
  | case2 freed done r rest hm => intro h; simp [scanWalk_cons_stamped hm, eventsBelow]
  | case3 freed done r rest hm hb ih =>
    intro h
    rw [scanWalk_cons_busy hm hb]
    exact ih h
  | case4 freed done r rest hm hb e freed' hge =>
    intro h
    have hb' : r.busy = false := by simpa using hb
    have hge' : freed + eventTotal (procRec nr freed r) ≥ nr := hge
    rw [scanWalk_cons_break hm hb' hge']
    exact ⟨h, trivial⟩
  | case5 freed done r rest hm hb e freed' r' hlt ih =>
    intro h
    have hb' : r.busy = false := by simpa using hb
    have hlt' : ¬ freed + eventTotal (procRec nr freed r) ≥ nr := hlt
    rw [scanWalk_cons_cont hm hb' hlt']
    exact ⟨h, ih (by omega)⟩

theorem scanWalk_steps_le (run nr freed : Nat) (done front : List Rec) :
    (scanWalk run nr freed done front).steps ≤ walkMeasure run front := by
  induction freed, done, front using scanWalk.induct run nr with
  | case1 freed done => simp [scanWalk_nil, walkMeasure]
  | case2 freed done r rest hm =>
    rw [scanWalk_cons_stamped hm]
    simp [walkMeasure]
    omega
  | case3 freed done r rest hm hb ih =>
    rw [scanWalk_cons_busy hm hb]
    simp only [walkMeasure, List.countP_cons, List.length_cons] at ih ⊢
    split <;> omega
  | case4 freed done r rest hm hb e freed' hge =>
    have hb' : r.busy = false := by simpa using hb
    have hge' : freed + eventTotal (procRec nr freed r) ≥ nr := hge
    rw [scanWalk_cons_break hm hb' hge']
    simp [walkMeasure]
    omega
  | case5 freed done r rest hm hb e freed' r' hlt ih =>
    have hb' : r.busy = false := by simpa using hb
    have hlt' : ¬ freed + eventTotal (procRec nr freed r) ≥ nr := hlt
    rw [scanWalk_cons_cont hm hb' hlt']
    have ih' : (scanWalk run nr (freed + eventTotal (procRec nr freed r)) done
          (rest ++ [{ r with marker := run }])).steps
        ≤ walkMeasure run (rest ++ [{ r with marker := run }]) := ih
    simp only [walkMeasure, List.countP_cons, List.countP_append, List.length_cons,
      List.length_append, List.countP_nil, List.length_nil] at ih' ⊢
    have hcr : (fun r => decide ¬(r.marker = run)) ({ r with marker := run } : Rec) = false := by
      simp
    have hcr2 : (fun x => decide ¬(x.marker = run)) r = true := by simp [hm]
    simp only [hcr, hcr2] at ih' ⊢
    simp at ih' ⊢
    omega

theorem scanWalk_rid_mem (run nr freed : Nat) (done front : List Rec) :
    ∀ e ∈ (scanWalk run nr freed done front).events, e.rid ∈ front.map Rec.id := by
  induction freed, done, front using scanWalk.induct run nr with
  | case1 freed done => simp [scanWalk_nil]
  | case2 freed done r rest hm => simp [scanWalk_cons_stamped hm]
  | case3 freed done r rest hm hb ih =>
    rw [scanWalk_cons_busy hm hb]
    intro e he
    have := ih e he
    simp only [List.map_cons, List.mem_cons]
    right
    exact this
  | case4 freed done r rest hm hb e freed' hge =>
    have hb' : r.busy = false := by simpa using hb
    have hge' : freed + eventTotal (procRec nr freed r) ≥ nr := hge
    rw [scanWalk_cons_break hm hb' hge']
    intro e' he'
    simp at he'
    simp [he', procRec_rid]
  | case5 freed done r rest hm hb e freed' r' hlt ih =>
    have hb' : r.busy = false := by simpa using hb
    have hlt' : ¬ freed + eventTotal (procRec nr freed r) ≥ nr := hlt
    rw [scanWalk_cons_cont hm hb' hlt']
    intro e' he'
    simp only [List.mem_cons] at he'
    rcases he' with rfl | he'
    · simp [procRec_rid]
    · have := ih e' he'
      simp only [List.map_append, List.map_cons, List.mem_append, List.mem_cons] at this ⊢
      rcases this with h | h
      · right; exact h
      · left
        simpa using h

/-- C1: for every successfully processed record, the budget is allocated
in three tiers: tier 1 always requests `nr / 2` from the extent cache;
tier 2 runs only if the scan-global freed total is still below the
target, requesting the shortfall from the NAT cache; tier 3 likewise
from the free-nid cache; and each tier's yield accumulates into the one
scan-global `freed` total, which starts at 0, is never reset between
records, and ends as the sum of all per-record yields. -/
theorem scan_budget_tiering (nr : Nat) (s : Registry) :
    tieredFrom nr 0 (f3fs_shrink_scan nr s).1.events ∧
    (f3fs_shrink_scan nr s).1.freed
      = ((f3fs_shrink_scan nr s).1.events.map eventTotal).sum := by
  have h := scanWalk_tiered (nextRunNo s.runNo) nr 0 [] s.instances
  exact ⟨h.1, by simpa [f3fs_shrink_scan] using h.2⟩

/-- C2 counterexample: with target 0 and a non-busy record present, the
record is still processed (the events list is non-empty) even though
`freed >= target` already holds on entry, refuting "no record is
processed while freed >= target already holds" at target 0. -/
theorem scan_stop_claim_cex :
    ¬ eventsBelow 0
        (f3fs_shrink_scan 0 ⟨[⟨7, false, 0, 0, 0, 0, 0,
          fun _ => 0, fun _ => 0, fun _ => 0⟩], 0⟩).1.events := by
  simp [f3fs_shrink_scan, nextRunNo, uintMod, scanWalk, procRec, eventTotal, eventsBelow]

/-- C2 (amended: for any positive target): once the accumulated freed
total reaches or exceeds the target, no further record is processed — 
every processed record saw a freed total strictly below the target on
entry. -/
theorem scan_stops_at_target (nr : Nat) (s : Registry) (h : 1 ≤ nr) :
    eventsBelow nr (f3fs_shrink_scan nr s).1.events :=
  scanWalk_eventsBelow (nextRunNo s.runNo) nr 0 [] s.instances (by omega)

/-- Witness for the amended C2 at target 1 on a one-record registry. -/
theorem scan_stops_at_target_witness :
    1 ≤ 1 ∧ eventsBelow 1
      (f3fs_shrink_scan 1 ⟨[⟨7, false, 0, 0, 0, 0, 0,
        fun _ => 0, fun _ => 0, fun _ => 0⟩], 0⟩).1.events :=
  ⟨le_refl 1,
   scan_stops_at_target 1 ⟨[⟨7, false, 0, 0, 0, 0, 0,
     fun _ => 0, fun _ => 0, fun _ => 0⟩], 0⟩ (le_refl 1)⟩

/-- C4: scan terminates on any registry state: the ghost iteration count
of the walk is bounded by twice the registry size (at most one full lap
of skips plus one lap of processed records), and the walk returns
immediately — processing nothing further — the moment it reaches a
record already stamped with the current run id. -/
theorem scan_walk_bounded (nr : Nat) (s : Registry) :
    (f3fs_shrink_scan nr s).1.steps ≤ 2 * s.instances.length ∧
    ∀ (run freed : Nat) (done rest : List Rec) (r : Rec),
      scanWalk run nr freed done ({ r with marker := run } :: rest)
        = ⟨freed, [], done ++ { r with marker := run } :: rest, 1⟩ := by
  constructor
  · have h := scanWalk_steps_le (nextRunNo s.runNo) nr 0 [] s.instances
    have h2 : walkMeasure (nextRunNo s.runNo) s.instances
        ≤ 2 * s.instances.length := by
      have := List.countP_le_length
        (fun r => decide (r.marker ≠ nextRunNo s.runNo)) (l := s.instances)
      simp only [walkMeasure]
      omega
    calc (f3fs_shrink_scan nr s).1.steps
        = (scanWalk (nextRunNo s.runNo) nr 0 [] s.instances).steps := rfl
      _ ≤ _ := le_trans h h2
  · intro run freed done rest r
    exact scanWalk_cons_stamped rfl

theorem eraseP_id_ne (n : Nat) (l : List Rec) (h : (l.map Rec.id).Nodup) :
    ∀ x ∈ l.eraseP (fun y => y.id = n), x.id ≠ n := by
  induction l with
  | nil => simp
  | cons a t ih =>
    simp only [List.map_cons, List.nodup_cons] at h
    by_cases ha : a.id = n
    · rw [List.eraseP_cons_of_pos (by simpa using ha)]
      intro x hx hxn
      exact h.1 (by rw [← ha] at hxn; rw [← hxn]; exact List.mem_map_of_mem Rec.id hx)
    · rw [List.eraseP_cons_of_neg (by simpa using ha)]
      intro x hx
      rcases List.mem_cons.mp hx with rfl | hx'
      · exact ha
      · exact ih h.2 x hx'

/-- C6: `leave` issues a single extent-cache shrink request for the
record's entire current extent count (zombie trees plus cached extent
nodes) and removes the record from the instances list; afterwards no
remaining record carries its id, so a subsequent scan never visits it
(no processed-record event bears its id) and a subsequent count credits
nothing of it. -/
theorem leave_full_drain_and_removal (r : Rec) (s : Registry)
    (h : (s.instances.map Rec.id).Nodup) :
    (f3fs_leave_shrinker r s).1 = r.zombie + r.extNode ∧
    (∀ x ∈ (f3fs_leave_shrinker r s).2.instances, x.id ≠ r.id) ∧
    (∀ nr, ∀ e ∈ (f3fs_shrink_scan nr (f3fs_leave_shrinker r s).2).1.events,
       e.rid ≠ r.id) := by
  refine ⟨rfl, eraseP_id_ne r.id s.instances h, ?_⟩
  intro nr e he
  have hmem : e.rid ∈ (f3fs_leave_shrinker r s).2.instances.map Rec.id :=
    scanWalk_rid_mem (nextRunNo (f3fs_leave_shrinker r s).2.runNo) nr 0 []
      (f3fs_leave_shrinker r s).2.instances e he
  simp only [List.mem_map] at hmem
  obtain ⟨x, hx, hxe⟩ := hmem
  have hne := eraseP_id_ne r.id s.instances h x hx
  omega

/-- Witness for C6 on a two-record registry with distinct ids. -/
theorem leave_full_drain_witness :
    ((([wRec 1, wRec 2]).map Rec.id).Nodup) ∧
    ((f3fs_leave_shrinker (wRec 1) ⟨[wRec 1, wRec 2], 0⟩).1
        = (wRec 1).zombie + (wRec 1).extNode ∧
     (∀ x ∈ (f3fs_leave_shrinker (wRec 1) ⟨[wRec 1, wRec 2], 0⟩).2.instances,
        x.id ≠ (wRec 1).id) ∧
     (∀ nr, ∀ e ∈ (f3fs_shrink_scan nr
          (f3fs_leave_shrinker (wRec 1) ⟨[wRec 1, wRec 2], 0⟩).2).1.events,
        e.rid ≠ (wRec 1).id)) :=
  ⟨by decide, leave_full_drain_and_removal (wRec 1) ⟨[wRec 1, wRec 2], 0⟩ (by decide)⟩

theorem procRec_zero (freed : Nat) (r : Rec) :
    procRec 0 freed r = ⟨r.id, freed, ⟨0, r.extShrink 0⟩, none, none⟩ := by
  simp [procRec]

theorem scanWalk_zero (run freed : Nat) (front : List Rec) (r : Rec)
    (hm : ∀ x ∈ front, x.marker ≠ run)
    (hf : front.find? (fun x => !x.busy) = some r) :
    ∀ done, scanWalk run 0 freed done front
      = ⟨freed + r.extShrink 0, [⟨r.id, freed, ⟨0, r.extShrink 0⟩, none, none⟩],
         done ++ front.takeWhile (fun x => x.busy)
           ++ (front.dropWhile (fun x => x.busy)).tail
           ++ [{ r with marker := run }],
         (front.takeWhile (fun x => x.busy)).length + 1⟩ := by
  induction front with
  | nil => simp at hf
  | cons x rest ih =>
    intro done
    have hmx : x.marker ≠ run := hm x (by simp)
    by_cases hbx : x.busy
    · have hf' : rest.find? (fun y => !y.busy) = some r := by
        simpa [List.find?_cons, hbx] using hf
      rw [scanWalk_cons_busy hmx hbx]
      rw [ih (fun y hy => hm y (by simp [hy])) hf' (done ++ [x])]
      simp [List.takeWhile_cons, List.dropWhile_cons, hbx]
    · have hb' : x.busy = false := by simpa using hbx
      have hr : r = x := by
        have hx : some x = some r := by simpa [List.find?_cons, hb'] using hf
        exact (Option.some_inj.mp hx).symm
      subst hr
      have hge : freed + eventTotal (procRec 0 freed r) ≥ 0 := Nat.zero_le _
      rw [scanWalk_cons_break hmx hb' hge]
      simp [procRec_zero, eventTotal, List.takeWhile_cons, List.dropWhile_cons, hb']

/-- C9: with target 0 and at least one record whose gate is free, scan
is not a no-op: it processes exactly the first non-busy record — issuing
one zero-sized extent-cache shrink request, no NAT or free-nid request,
stamping the record with the new run id and moving it to the tail — and
then stops, visiting no further record, returning what that one request
freed. -/
theorem scan_zero_target_processes_one (s : Registry) (r : Rec)
    (hm : ∀ x ∈ s.instances, x.marker ≠ nextRunNo s.runNo)
    (hf : s.instances.find? (fun x => !x.busy) = some r) :
    (f3fs_shrink_scan 0 s).1.events
        = [⟨r.id, 0, ⟨0, r.extShrink 0⟩, none, none⟩] ∧
    (f3fs_shrink_scan 0 s).1.freed = r.extShrink 0 ∧
    (f3fs_shrink_scan 0 s).2.instances
        = s.instances.takeWhile (fun x => x.busy)
          ++ (s.instances.dropWhile (fun x => x.busy)).tail
          ++ [{ r with marker := nextRunNo s.runNo }] := by
  have h := scanWalk_zero (nextRunNo s.runNo) 0 s.instances r hm hf []
  refine ⟨?_, ?_, ?_⟩ <;>
    simp [f3fs_shrink_scan, h]

theorem scan_zero_target_witness :
    (∀ x ∈ ([wRecBusy 3, wRec 4] : List Rec), x.marker ≠ nextRunNo 0) ∧
    (([wRecBusy 3, wRec 4] : List Rec).find? (fun x => !x.busy) = some (wRec 4)) ∧
    ((f3fs_shrink_scan 0 ⟨[wRecBusy 3, wRec 4], 0⟩).1.events
        = [⟨(wRec 4).id, 0, ⟨0, (wRec 4).extShrink 0⟩, none, none⟩] ∧
     (f3fs_shrink_scan 0 ⟨[wRecBusy 3, wRec 4], 0⟩).1.freed = (wRec 4).extShrink 0 ∧
     (f3fs_shrink_scan 0 ⟨[wRecBusy 3, wRec 4], 0⟩).2.instances
        = ([wRecBusy 3, wRec 4] : List Rec).takeWhile (fun x => x.busy)
          ++ (([wRecBusy 3, wRec 4] : List Rec).dropWhile (fun x => x.busy)).tail
          ++ [{ wRec 4 with marker := nextRunNo 0 }]) :=
  ⟨by decide, rfl,
   scan_zero_target_processes_one ⟨[wRecBusy 3, wRec 4], 0⟩ (wRec 4) (by decide) rfl⟩

/-- One `scan(1)` call on a registry whose head is eligible and frees at
least one object processes exactly the head and moves it, stamped, to
the tail. -/
theorem scan1_processes_head (c : Nat) (r : Rec) (rest : List Rec)
    (hb : r.busy = false) (hm : r.marker ≠ nextRunNo c)
    (hf : 1 ≤ recFreed1 r) :
    f3fs_shrink_scan 1 ⟨r :: rest, c⟩
      = (⟨recFreed1 r, [procRec 1 0 r], 1⟩,
         ⟨rest ++ [{ r with marker := nextRunNo c }], nextRunNo c⟩) := by
  have hge : (0 : Nat) + eventTotal (procRec 1 0 r) ≥ 1 := by
    simpa [recFreed1] using hf
  simp only [f3fs_shrink_scan]
  rw [scanWalk_cons_break hm hb hge]
  simp [recFreed1]

theorem scanSeq_round_robin (l : List Rec) :
    ∀ (ss : List Rec) (c : Nat),
      (∀ r ∈ l, r.busy = false) → (∀ r ∈ l, r.marker = 0) →
      (∀ r ∈ l, 1 ≤ recFreed1 r) → c + l.length < uintMod →
      scanSeq l.length ⟨l ++ ss, c⟩ = l.map Rec.id := by
  induction l with
  | nil => intro ss c _ _ _ _; simp [scanSeq]
  | cons r l' ih =>
    intro ss c hb hm hf hc
    have hrun : nextRunNo c = c + 1 := by
      simp only [nextRunNo]
      rw [Nat.mod_eq_of_lt (by simp at hc; omega)]
      simp
    have hb0 : r.busy = false := hb r (by simp)
    have hm0 : r.marker ≠ nextRunNo c := by
      rw [hrun, hm r (by simp)]
      omega
    have hf0 : 1 ≤ recFreed1 r := hf r (by simp)
    have hstep := scan1_processes_head c r (l' ++ ss) hb0 hm0 hf0
    show (f3fs_shrink_scan 1 ⟨r :: (l' ++ ss), c⟩).1.events.map ProcEvent.rid
        ++ scanSeq l'.length (f3fs_shrink_scan 1 ⟨r :: (l' ++ ss), c⟩).2
      = r.id :: l'.map Rec.id
    rw [hstep, hrun]
    have hih := ih (ss ++ [{ r with marker := c + 1 }]) (c + 1)
      (fun x hx => hb x (by simp [hx])) (fun x hx => hm x (by simp [hx]))
      (fun x hx => hf x (by simp [hx])) (by simp at hc ⊢; omega)
    simp only [List.append_assoc] at hih ⊢
    simp [hih, procRec_rid]

/-- C3: round-robin fairness: with N freshly joined instances (marker
0), none busy, each freeing at least one object when processed at
target 1, N repeated `scan(1)` calls process the instances exactly in
list order — every instance is visited exactly once (hence at least once
before any instance is visited twice), because each processed record is
moved to the tail before the next call begins. -/
theorem scan_round_robin_fair (l : List Rec)
    (hb : ∀ r ∈ l, r.busy = false) (hm : ∀ r ∈ l, r.marker = 0)
    (hf : ∀ r ∈ l, 1 ≤ recFreed1 r) (hlen : l.length < uintMod) :
    scanSeq l.length ⟨l, 0⟩ = l.map Rec.id := by
  have h := scanSeq_round_robin l [] 0 hb hm hf (by omega)
  simpa using h

/-- Witness for C3 on three fresh instances. -/
theorem scan_round_robin_fair_witness :
    (∀ r ∈ ([wRec 1, wRec 2, wRec 3] : List Rec), r.busy = false) ∧
    (∀ r ∈ ([wRec 1, wRec 2, wRec 3] : List Rec), r.marker = 0) ∧
    (∀ r ∈ ([wRec 1, wRec 2, wRec 3] : List Rec), 1 ≤ recFreed1 r) ∧
    ([wRec 1, wRec 2, wRec 3] : List Rec).length < uintMod ∧
    scanSeq ([wRec 1, wRec 2, wRec 3] : List Rec).length ⟨[wRec 1, wRec 2, wRec 3], 0⟩
      = ([wRec 1, wRec 2, wRec 3] : List Rec).map Rec.id :=
  ⟨by decide, by decide, by decide, by decide,
   scan_round_robin_fair [wRec 1, wRec 2, wRec 3]
     (by decide) (by decide) (by decide) (by decide)⟩
